import Mathlib

/-!
Verification of the `forward` library (forward-basics.h / forward.h), a small
lazy sequence-combinator library (`range`, `from`, `where`, `select`,
`to_vector`, `sum_from`).

Shallow embedding conventions:
* the `tuple<bool, T>` optional-value protocol of forward-basics.h is embedded
  as `Bool × α`, with `Inhabited α` standing in for default-constructibility;
* a C++ enumerator object is a Lean structure; its mutating `next()` member
  becomes a pure function `state → (Bool × α) × state` returning the pulled
  value together with the updated enumerator state;
* C++ iterator pairs (`_current`, `_end`) over a container are embedded as the
  remaining suffix of the container's element list;
* the unbounded loops of the library (`for(;;)` in `WhereEnumerator::next`,
  the drain loops of `to_vector` / `sum_from`, the seek loop of forward.h's
  `WhereEnumerator`) are embedded with an explicit fuel parameter and an
  `Option` result: `none` means the loop did not finish within the given fuel,
  `some r` means the loop terminated with result `r`.  Accordingly every
  upstream `next` function is used in the `Option`-valued form
  `E → Option ((Bool × α) × E)`; terminating `next` functions are lifted with
  `liftNext`.
-/

/-! ## forward-basics.h: the tuple optional-value protocol (lines 21-53) -/

/-- `has_more` (forward-basics.h line 23): first component of the tuple. -/
def has_more {α : Type} (current : Bool × α) : Bool :=
  current.1

/-- `get_value_by_ref` (forward-basics.h line 29): second component. -/
def get_value_by_ref {α : Type} (current : Bool × α) : α :=
  current.2

/-- `forward_value` (forward-basics.h line 35): second component. -/
def forward_value {α : Type} (current : Bool × α) : α :=
  current.2

/-- `yield_break<ReturnType>()` (forward-basics.h line 41):
`(false, ReturnType{})`, the default-constructed sentinel. -/
def yield_break (α : Type) [Inhabited α] : Bool × α :=
  (false, default)

/-- `yield_return` (forward-basics.h line 47): `(true, current)`. -/
def yield_return {α : Type} (current : α) : Bool × α :=
  (true, current)

/-! ## forward-basics.h: enumerators -/

/-- `RangeEnumerator<Number>` state (forward-basics.h lines 81-105). -/
structure RangeEnumerator (Number : Type) where
  _current : Number
  _lastExcluded : Number
deriving DecidableEq, Repr

/-- `RangeEnumerator::next` (forward-basics.h lines 93-99):
`if (_current == _lastExcluded) return yield_break; else return
yield_return(_current++);` (post-increment: the old value is yielded). -/
def RangeEnumerator.next {N : Type} [DecidableEq N] [Inhabited N] [Add N] [One N]
    (e : RangeEnumerator N) : (Bool × N) × RangeEnumerator N :=
  if e._current = e._lastExcluded then
    (yield_break N, e)
  else
    (yield_return e._current, { e with _current := e._current + 1 })

/-- `EnumeratorFromIterator<Iterator>` (forward-basics.h lines 116-148); the
iterator pair is embedded as the remaining suffix of the container. -/
structure EnumeratorFromIterator (α : Type) where
  _current : List α
deriving DecidableEq, Repr

/-- `EnumeratorFromIterator::next` (forward-basics.h lines 127-142):
at the end return `yield_break`, otherwise yield `*_current` and advance. -/
def EnumeratorFromIterator.next {α : Type} [Inhabited α]
    (e : EnumeratorFromIterator α) : (Bool × α) × EnumeratorFromIterator α :=
  match e._current with
  | [] => (yield_break α, e)
  | x :: rest => (yield_return x, ⟨rest⟩)

/-- Lift a terminating `next` into the fueled `Option` form used by loops. -/
def liftNext {E α : Type} (next : E → (Bool × α) × E) :
    E → Option ((Bool × α) × E) :=
  fun e => some (next e)

/-- `SelectEnumerator<Enumerator, Transform>` state
(forward-basics.h lines 160-185). -/
structure SelectEnumerator (E α β : Type) where
  _enumerator : E
  _transform : α → β

/-- `SelectEnumerator::next` (forward-basics.h lines 171-179): pull the
upstream once (mutating it), then
`has_more(underlying) ? yield_return(_transform(get<1>(underlying)))
: yield_break<result_type>()`. -/
def SelectEnumerator.next {E α β : Type} [Inhabited β]
    (nextE : E → Option ((Bool × α) × E)) (s : SelectEnumerator E α β) :
    Option ((Bool × β) × SelectEnumerator E α β) :=
  match nextE s._enumerator with
  | none => none
  | some (underlying, e') =>
      some (if has_more underlying then
              yield_return (s._transform underlying.2)
            else
              yield_break β,
            { s with _enumerator := e' })

/-- `WhereEnumerator<Enumerator, Filter>` state
(forward-basics.h lines 200-233). -/
structure WhereEnumerator (E α : Type) where
  _enumerator : E
  _filter : α → Bool

/-- `WhereEnumerator::next` (forward-basics.h lines 213-227): the `for(;;)`
loop — pull upstream; if exhausted, `yield_break`; if the filter accepts,
`yield_return(forward_value(current))`; otherwise loop.  `fuel` bounds the
number of loop iterations (`none` = not finished within `fuel`). -/
def WhereEnumerator.next {E α : Type} [Inhabited α]
    (nextE : E → Option ((Bool × α) × E)) :
    Nat → WhereEnumerator E α → Option ((Bool × α) × WhereEnumerator E α)
  | 0, _ => none
  | fuel + 1, w =>
    match nextE w._enumerator with
    | none => none
    | some (current, e') =>
        if !has_more current then
          some (yield_break α, { w with _enumerator := e' })
        else if w._filter (get_value_by_ref current) then
          some (yield_return (forward_value current), { w with _enumerator := e' })
        else
          WhereEnumerator.next nextE fuel { w with _enumerator := e' }

/-! ## forward-basics.h: enumerables (lines 253-399) -/

/-- `RangeEnumerable<Number>` (forward-basics.h lines 253-275). -/
structure RangeEnumerable (Number : Type) where
  _current : Number
  _lastExcluded : Number
deriving DecidableEq, Repr

/-- `RangeEnumerable::get_enumerator` (forward-basics.h line 266). -/
def RangeEnumerable.get_enumerator {N : Type} (r : RangeEnumerable N) :
    RangeEnumerator N :=
  ⟨r._current, r._lastExcluded⟩

/-- `range(start, endExclusive)` (forward-basics.h lines 395-399). -/
def range {N : Type} (start endExclusive : N) : RangeEnumerable N :=
  ⟨start, endExclusive⟩

/-- `EnumerableFromIteratableRef<Iteratable>` (forward-basics.h lines
278-300); the borrowed container is embedded as its element list. -/
structure EnumerableFromIteratableRef (α : Type) where
  _iteratable : List α
deriving DecidableEq, Repr

/-- `EnumerableFromIteratableRef::get_enumerator` (forward-basics.h
line 292): a fresh iterator pair over the container. -/
def EnumerableFromIteratableRef.get_enumerator {α : Type}
    (s : EnumerableFromIteratableRef α) : EnumeratorFromIterator α :=
  ⟨s._iteratable⟩

/-- `from(iteratable)` (forward-basics.h lines 383-387); `from` is a Lean
keyword, hence the underscore suffix. -/
def from_ {α : Type} (iteratable : List α) : EnumerableFromIteratableRef α :=
  ⟨iteratable⟩

/-- `WhereEnumerable<Enumerable, Filter>` (forward-basics.h lines 328-351);
generic over the upstream enumerable type `S`. -/
structure WhereEnumerable (S α : Type) where
  _enumerable : S
  _filter : α → Bool

/-- `WhereEnumerable::get_enumerator` (forward-basics.h lines 342-345):
`enumerator(_enumerable.get_enumerator(), _filter)`; the upstream's
`get_enumerator` is passed explicitly. -/
def WhereEnumerable.get_enumerator {S E α : Type} (getEnum : S → E)
    (w : WhereEnumerable S α) : WhereEnumerator E α :=
  ⟨getEnum w._enumerable, w._filter⟩

/-- `SelectEnumerable<Enumerable, Transform>` (forward-basics.h lines
354-377). -/
structure SelectEnumerable (S α β : Type) where
  _enumerable : S
  _transform : α → β

/-- `SelectEnumerable::get_enumerator` (forward-basics.h lines 368-371). -/
def SelectEnumerable.get_enumerator {S E α β : Type} (getEnum : S → E)
    (s : SelectEnumerable S α β) : SelectEnumerator E α β :=
  ⟨getEnum s._enumerable, s._transform⟩

/-! ## forward-basics.h: accumulator functions (lines 462-523) -/

/-- Drain loop of `to_vector` (forward-basics.h lines 473-479):
`for(;;) { next = enumerator.next(); if (!has_more(next)) break;
result.push_back(get<1>(next)); }`.  `fuel` bounds the iterations. -/
def to_vector_loop {E α : Type} (nextE : E → Option ((Bool × α) × E)) :
    Nat → E → Option (List α)
  | 0, _ => none
  | fuel + 1, e =>
    match nextE e with
    | none => none
    | some (nxt, e') =>
        if has_more nxt then
          (to_vector_loop nextE fuel e').map (fun r => get_value_by_ref nxt :: r)
        else
          some []

/-- Fold loop of `sum_from` (forward-basics.h lines 516-522):
`next = enumerator.next(); if (!has_more(next)) return result;
result = result + get_value_by_ref(next);`. -/
def sum_from_loop {E T : Type} [Add T] (nextE : E → Option ((Bool × T) × E)) :
    Nat → E → T → Option T
  | 0, _, _ => none
  | fuel + 1, e, result =>
    match nextE e with
    | none => none
    | some (nxt, e') =>
        if has_more nxt then
          sum_from_loop nextE fuel e' (result + get_value_by_ref nxt)
        else
          some result

/-! ## Trace semantics

`Produces nextE e L`: pulling the cursor state `e` repeatedly terminates,
yielding exactly the values of `L` in order and then an Absent result.  This
is the specification-side notion of "the cursor denotes the finite sequence
`L`" used as the hypothesis of the universally-quantified claims. -/

inductive Produces {E α : Type} (nextE : E → Option ((Bool × α) × E)) :
    E → List α → Prop
  | nil {e : E} {p : Bool × α} {e' : E} :
      nextE e = some (p, e') → has_more p = false → Produces nextE e []
  | cons {e : E} {v : α} {e' : E} {L : List α} :
      nextE e = some ((true, v), e') → Produces nextE e' L →
      Produces nextE e (v :: L)

theorem Produces.first_some {E α : Type} {nextE : E → Option ((Bool × α) × E)}
    {e : E} {L : List α} (h : Produces nextE e L) :
    ∃ r, nextE e = some r := by
  cases h with
  | nil h1 _ => exact ⟨_, h1⟩
  | cons h1 _ => exact ⟨_, h1⟩

/-- Transfer a trace along a pointwise refinement of the `next` function. -/
theorem Produces.of_imp {E α : Type} {nf nf' : E → Option ((Bool × α) × E)}
    (himp : ∀ w r, nf w = some r → nf' w = some r)
    {e : E} {L : List α} (h : Produces nf e L) : Produces nf' e L := by
  induction h with
  | nil h1 h2 => exact Produces.nil (himp _ _ h1) h2
  | cons h1 _ ih => exact Produces.cons (himp _ _ h1) ih

/-- Two states with the same first pull have the same traces. -/
theorem Produces.congr_head {E α : Type} {nf : E → Option ((Bool × α) × E)}
    {s s' : E} (hss : nf s = nf s') {L : List α}
    (h : Produces nf s' L) : Produces nf s L := by
  cases h with
  | nil h1 h2 => exact Produces.nil (hss.trans h1) h2
  | cons h1 h2 => exact Produces.cons (hss.trans h1) h2

/-- The iterator cursor over a container traces exactly the container. -/
theorem produces_iterator {α : Type} [Inhabited α] (l : List α) :
    Produces (liftNext EnumeratorFromIterator.next) ⟨l⟩ l := by
  induction l with
  | nil => exact Produces.nil (p := yield_break α) rfl rfl
  | cons x rest ih => exact Produces.cons rfl ih

/-- The range cursor over `Int` traces the ascending list `[a, a+1, ...]` of
length `n` starting from `a`, when the upper bound is `a + n`. -/
theorem produces_range_aux (n : Nat) : ∀ a : Int,
    Produces (liftNext RangeEnumerator.next) ⟨a, a + n⟩
      ((List.range n).map (fun i : Nat => a + (i : Int))) := by
  induction n with
  | zero =>
      intro a
      refine @Produces.nil _ _ _ _ (yield_break Int) ⟨a, a + (0 : Nat)⟩ ?_ rfl
      simp [liftNext, RangeEnumerator.next]
  | succ n ih =>
      intro a
      have hne : a ≠ a + ((n : Int) + 1) := by omega
      have hlist : (List.range (n + 1)).map (fun i : Nat => a + (i : Int))
          = a :: (List.range n).map (fun i : Nat => (a + 1) + (i : Int)) := by
        rw [List.range_succ_eq_map]
        simp only [List.map_cons, List.map_map, Nat.cast_zero, add_zero]
        congr 1
        refine List.map_congr_left ?_
        intro i _
        simp only [Function.comp_apply]
        push_cast
        ring
      rw [hlist]
      refine @Produces.cons _ _ _ _ _ ⟨a + 1, a + ((n : Int) + 1)⟩ _ ?_ ?_
      · simp only [liftNext, RangeEnumerator.next, yield_return]
        rw [if_neg (by push_cast; exact hne)]
        norm_cast
      · have := ih (a + 1)
        have harith : (a + 1) + (n : Int) = a + ((n : Int) + 1) := by ring
        rw [harith] at this
        convert this using 2

/-- Correctness of the `to_vector` drain loop: a cursor tracing `L` drains to
exactly `L` once the fuel exceeds `L.length`. -/
theorem to_vector_loop_produces {E α : Type}
    {nextE : E → Option ((Bool × α) × E)} :
    ∀ {L : List α} {e : E}, Produces nextE e L → ∀ {fuel : Nat},
      L.length < fuel → to_vector_loop nextE fuel e = some L := by
  intro L e h
  induction h with
  | nil h1 h2 =>
      intro fuel hf
      match fuel, hf with
      | f + 1, _ =>
        simp only [to_vector_loop, h1, h2, Bool.false_eq_true, if_false]
  | cons h1 _ ih =>
      intro fuel hf
      match fuel, hf with
      | f + 1, hf =>
        have hfl : _ < f := Nat.lt_of_succ_lt_succ hf
        simp only [to_vector_loop, h1, has_more, if_true, ih hfl]
        rfl

/-- Correctness of the `sum_from` fold loop: it computes the left fold of
`+` over the trace, started from the given zero. -/
theorem sum_from_loop_produces {E T : Type} [Add T]
    {nextE : E → Option ((Bool × T) × E)} :
    ∀ {L : List T} {e : E}, Produces nextE e L → ∀ {fuel : Nat} (z : T),
      L.length < fuel →
      sum_from_loop nextE fuel e z = some (L.foldl (fun acc v => acc + v) z) := by
  intro L e h
  induction h with
  | nil h1 h2 =>
      intro fuel z hf
      match fuel, hf with
      | f + 1, _ =>
        simp only [sum_from_loop, h1, h2, Bool.false_eq_true, if_false,
          List.foldl_nil]
  | cons h1 _ ih =>
      intro fuel z hf
      match fuel, hf with
      | f + 1, hf =>
        have hfl : _ < f := Nat.lt_of_succ_lt_succ hf
        simp only [sum_from_loop, h1, has_more, if_true, get_value_by_ref,
          List.foldl_cons]
        exact ih _ hfl

/-- Fuel monotonicity of the filter loop: a pull that completes within `f`
iterations completes with the same result at any larger fuel. -/
theorem WhereEnumerator.next_mono {E α : Type} [Inhabited α]
    {nextE : E → Option ((Bool × α) × E)} :
    ∀ {f f' : Nat}, f ≤ f' →
      ∀ {w : WhereEnumerator E α} {r}, WhereEnumerator.next nextE f w = some r →
        WhereEnumerator.next nextE f' w = some r := by
  intro f
  induction f with
  | zero =>
      intro f' _ w r h
      simp [WhereEnumerator.next] at h
  | succ f ih =>
      intro f' hff w r h
      match f', hff with
      | f'' + 1, hff =>
        have hff' : f ≤ f'' := Nat.le_of_succ_le_succ hff
        simp only [WhereEnumerator.next] at h ⊢
        match hup : nextE w._enumerator with
        | none => rw [hup] at h; exact absurd h (by simp)
        | some (current, e') =>
            rw [hup] at h
            by_cases hm : has_more current
            · by_cases hfil : w._filter (get_value_by_ref current)
              · simpa [hm, hfil] using h
              · simp only [hm, hfil, Bool.not_true, Bool.false_eq_true,
                  if_false] at h ⊢
                exact ih hff' h
            · simpa [hm] using h

/-- The filter cursor traces the filtered upstream trace, at any per-pull
fuel exceeding the length of the upstream trace. -/
theorem produces_where {E α : Type} [Inhabited α]
    {nextE : E → Option ((Bool × α) × E)} :
    ∀ {L : List α} {e : E}, Produces nextE e L → ∀ (P : α → Bool) {fuel : Nat},
      L.length < fuel →
      Produces (WhereEnumerator.next nextE fuel) ⟨e, P⟩ (L.filter P) := by
  intro L e h
  induction h with
  | @nil e p e' h1 h2 =>
      intro P fuel hf
      match fuel, hf with
      | f + 1, _ =>
        refine @Produces.nil _ _ _ _ (yield_break α) ⟨e', P⟩ ?_ rfl
        simp only [WhereEnumerator.next, h1, h2, Bool.not_false, if_true]
  | @cons e v e' L h1 h2 ih =>
      intro P fuel hf
      match fuel, hf with
      | f + 1, hf =>
        have hfl : L.length < f := Nat.lt_of_succ_lt_succ hf
        have lift : ∀ {s LL}, Produces (WhereEnumerator.next nextE f) s LL →
            Produces (WhereEnumerator.next nextE (f + 1)) s LL :=
          fun h => h.of_imp (fun _ _ =>
            WhereEnumerator.next_mono (Nat.le_succ f))
        by_cases hfil : P v
        · rw [List.filter_cons_of_pos hfil]
          refine Produces.cons ?_ (lift (ih P hfl))
          simp only [WhereEnumerator.next, h1, has_more, Bool.not_true,
            Bool.false_eq_true, if_false, get_value_by_ref, hfil, if_true,
            yield_return, forward_value]
        · rw [List.filter_cons_of_neg (by simp [hfil])]
          have hbase := ih P hfl
          have hlifted := lift hbase
          refine Produces.congr_head ?_ hlifted
          obtain ⟨r, hr⟩ := hbase.first_some
          have hr' := WhereEnumerator.next_mono (Nat.le_succ f) hr
          calc WhereEnumerator.next nextE (f + 1) ⟨e, P⟩
              = WhereEnumerator.next nextE f ⟨e', P⟩ := by
                simp only [WhereEnumerator.next, h1, has_more, Bool.not_true,
                  Bool.false_eq_true, if_false, get_value_by_ref, hfil]
            _ = WhereEnumerator.next nextE (f + 1) ⟨e', P⟩ := by
                rw [hr, hr']

/-- The map cursor traces the mapped upstream trace. -/
theorem produces_select {E α β : Type} [Inhabited β]
    {nextE : E → Option ((Bool × α) × E)} :
    ∀ {L : List α} {e : E}, Produces nextE e L → ∀ (F : α → β),
      Produces (SelectEnumerator.next nextE) ⟨e, F⟩ (L.map F) := by
  intro L e h
  induction h with
  | @nil e p e' h1 h2 =>
      intro F
      refine @Produces.nil _ _ _ _ (yield_break β) ⟨e', F⟩ ?_ rfl
      simp only [has_more] at h2
      simp only [SelectEnumerator.next, h1, has_more, h2, Bool.false_eq_true,
        if_false]
  | cons h1 _ ih =>
      intro F
      refine Produces.cons ?_ (ih F)
      simp only [SelectEnumerator.next, h1, has_more, if_true, yield_return]

/-! ## Exhaustion is sticky (claim C4 machinery)

`stepO` advances a cursor state by one pull; `pullSkip n` by `n` pulls.
`AbsentAt` says the pull at a state completes and returns Absent;
`StickyNext` says an Absent pull leaves the cursor in a state whose next
pull is again Absent. -/

def stepO {E α : Type} (nextE : E → Option ((Bool × α) × E)) (e : E) : E :=
  match nextE e with
  | some (_, e') => e'
  | none => e

def pullSkip {E α : Type} (nextE : E → Option ((Bool × α) × E)) :
    Nat → E → E
  | 0, e => e
  | n + 1, e => pullSkip nextE n (stepO nextE e)

def AbsentAt {E α : Type} (nextE : E → Option ((Bool × α) × E)) (e : E) :
    Prop :=
  ∃ p e', nextE e = some (p, e') ∧ has_more p = false

def StickyNext {E α : Type} (nextE : E → Option ((Bool × α) × E)) : Prop :=
  ∀ e p e', nextE e = some (p, e') → has_more p = false → AbsentAt nextE e'

/-- A sticky cursor that has pulled Absent stays Absent under any number of
further pulls. -/
theorem absent_forever {E α : Type} {nextE : E → Option ((Bool × α) × E)}
    (hsticky : StickyNext nextE) {e : E} (habs : AbsentAt nextE e) :
    ∀ n : Nat, AbsentAt nextE (pullSkip nextE n e) := by
  intro n
  induction n generalizing e with
  | zero => exact habs
  | succ n ih =>
      obtain ⟨p, e', hpe, hp⟩ := habs
      have hstep : stepO nextE e = e' := by
        simp [stepO, hpe]
      have : AbsentAt nextE e' := hsticky e p e' hpe hp
      simpa [pullSkip, hstep] using ih this

/-- The range cursor is sticky: an Absent pull does not move the state. -/
theorem range_sticky {N : Type} [DecidableEq N] [Inhabited N] [Add N] [One N] :
    StickyNext (liftNext (RangeEnumerator.next (N := N))) := by
  intro e p e' hpe hp
  simp only [liftNext, RangeEnumerator.next] at hpe
  by_cases hc : e._current = e._lastExcluded
  · rw [if_pos hc] at hpe
    obtain ⟨hp', he'⟩ := Prod.mk.injEq .. ▸ Option.some.injEq .. ▸ hpe
    refine ⟨yield_break N, e', ?_, rfl⟩
    simp [liftNext, RangeEnumerator.next, ← he', hc]
  · rw [if_neg hc] at hpe
    obtain ⟨hp', _⟩ := Prod.mk.injEq .. ▸ Option.some.injEq .. ▸ hpe
    rw [← hp'] at hp
    simp [yield_return, has_more] at hp

/-- The iterator cursor is sticky: an Absent pull does not move the state. -/
theorem iterator_sticky {α : Type} [Inhabited α] :
    StickyNext (liftNext (EnumeratorFromIterator.next (α := α))) := by
  intro e p e' hpe hp
  match hcur : e._current with
  | [] =>
      have he : e = ⟨[]⟩ := by cases e; simp_all
      subst he
      simp only [liftNext, EnumeratorFromIterator.next, Option.some.injEq,
        Prod.mk.injEq] at hpe
      refine ⟨yield_break α, e', ?_, rfl⟩
      simp [liftNext, EnumeratorFromIterator.next, ← hpe.2]
  | x :: rest =>
      have he : e = ⟨x :: rest⟩ := by cases e; simp_all
      subst he
      simp only [liftNext, EnumeratorFromIterator.next, Option.some.injEq,
        Prod.mk.injEq] at hpe
      rw [← hpe.1] at hp
      simp [yield_return, has_more] at hp

/-- An Absent filter pull leaves the upstream in a just-exhausted state:
with a sticky upstream, the upstream pull at the result state is Absent. -/
theorem where_absent_upstream {E α : Type} [Inhabited α]
    {nextE : E → Option ((Bool × α) × E)} (hsticky : StickyNext nextE) :
    ∀ {fuel : Nat} {w w' : WhereEnumerator E α} {p : Bool × α},
      WhereEnumerator.next nextE fuel w = some (p, w') → has_more p = false →
      AbsentAt nextE w'._enumerator := by
  intro fuel
  induction fuel with
  | zero => intro w w' p h _; simp [WhereEnumerator.next] at h
  | succ f ih =>
      intro w w' p h hp
      simp only [WhereEnumerator.next] at h
      match hup : nextE w._enumerator with
      | none => rw [hup] at h; exact absurd h (by simp)
      | some (current, e') =>
          rw [hup] at h
          by_cases hm : has_more current
          · by_cases hfil : w._filter (get_value_by_ref current)
            · simp only [hm, Bool.not_true, Bool.false_eq_true, if_false,
                hfil, if_true, Option.some.injEq, Prod.mk.injEq] at h
              rw [← h.1] at hp
              simp [yield_return, has_more] at hp
            · simp only [hm, Bool.not_true, Bool.false_eq_true, if_false,
                hfil] at h
              exact ih h hp
          · simp only [Bool.not_eq_true] at hm
            simp only [hm, Bool.not_false, if_true, Option.some.injEq,
              Prod.mk.injEq] at h
            have : AbsentAt nextE e' := hsticky _ _ _ hup hm
            rw [← h.2]
            exact this

/-- Over a sticky upstream the filter cursor is sticky (at every per-pull
fuel: a fuel-0 pull returns `none`, not Absent, so the premise rules it
out). -/
theorem where_sticky {E α : Type} [Inhabited α]
    {nextE : E → Option ((Bool × α) × E)} (hsticky : StickyNext nextE)
    (fuel : Nat) :
    StickyNext (fun w => WhereEnumerator.next nextE fuel w) := by
  intro w p w' hpw hp
  have habs : AbsentAt nextE w'._enumerator :=
    where_absent_upstream hsticky hpw hp
  obtain ⟨q, e'', hq, hqa⟩ := habs
  match fuel, hpw with
  | f + 1, _ =>
    refine ⟨yield_break α, { w' with _enumerator := e'' }, ?_, rfl⟩
    simp only [WhereEnumerator.next, hq, hqa, Bool.not_false, if_true]

/-- Over a sticky upstream the map cursor is sticky. -/
theorem select_sticky {E α β : Type} [Inhabited β]
    {nextE : E → Option ((Bool × α) × E)} (hsticky : StickyNext nextE) :
    StickyNext (SelectEnumerator.next (β := β) nextE) := by
  intro s p s' hps hp
  simp only [SelectEnumerator.next] at hps
  match hup : nextE s._enumerator with
  | none => rw [hup] at hps; exact absurd hps (by simp)
  | some (underlying, e') =>
      rw [hup] at hps
      simp only [Option.some.injEq, Prod.mk.injEq] at hps
      by_cases hm : has_more underlying
      · rw [if_pos hm] at hps
        rw [← hps.1] at hp
        simp [yield_return, has_more] at hp
      · simp only [Bool.not_eq_true] at hm
        have : AbsentAt nextE e' := hsticky _ _ _ hup hm
        obtain ⟨q, e'', hq, hqa⟩ := this
        refine ⟨yield_break β, ⟨e'', s._transform⟩, ?_, rfl⟩
        rw [← hps.2]
        simp only [has_more] at hqa
        simp only [SelectEnumerator.next, hq, has_more, hqa,
          Bool.false_eq_true, if_false]

/-! ## forward.h: the has_value / get_value / forward protocol

The second implementation in the repository.  Cursor types are embedded at
the pipeline shape `from(container) >> where(P) >> select(F)` used by the
equivalence claim; forward.h's `value_type` aliasing makes the select
transform type-preserving (`value_type = typename Enumerator::value_type`).
The asserts in `forward()` guard an advance of an exhausted cursor; drains
only ever advance after checking `has_value`, so `forward` is embedded with
its assert-disabled (release) semantics. -/

/-- `EnumeratorFromIterator` of forward.h (lines 23-59); the iterator pair
is the remaining suffix of the container. -/
structure FwdEnumeratorFromIterator (α : Type) where
  _current : List α
deriving DecidableEq, Repr

/-- forward.h `has_value` (lines 37-40): `_current != _end`. -/
def FwdEnumeratorFromIterator.has_value {α : Type}
    (e : FwdEnumeratorFromIterator α) : Bool :=
  !e._current.isEmpty

/-- forward.h `get_value` (lines 44-47): `*_current`, an unchecked
dereference; on an exhausted cursor the C++ is undefined behavior, embedded
as the default value. -/
def FwdEnumeratorFromIterator.get_value {α : Type} [Inhabited α]
    (e : FwdEnumeratorFromIterator α) : α :=
  e._current.headD default

/-- forward.h `forward` (lines 49-53): `assert(has_value()); ++_current;`
(assert-disabled semantics: the tail of an empty suffix is empty). -/
def FwdEnumeratorFromIterator.forward {α : Type}
    (e : FwdEnumeratorFromIterator α) : FwdEnumeratorFromIterator α :=
  ⟨e._current.tail⟩

/-- The `seek` loop of forward.h `WhereEnumerator` (lines 175-184), acting
on the upstream iterator cursor's remaining suffix:
`while (has_value) { if (filter(get_value)) break; else forward; }`. -/
def fwdSeekAux {α : Type} (filter : α → Bool) : List α → List α
  | [] => []
  | x :: rest => if filter x then x :: rest else fwdSeekAux filter rest

/-- forward.h `WhereEnumerator` state (lines 140-191), over the iterator
cursor. -/
structure FwdWhereEnumerator (α : Type) where
  _enumerator : FwdEnumeratorFromIterator α
  _filter : α → Bool

/-- forward.h `WhereEnumerator` constructor (lines 148-153): store the
upstream and the filter, then `seek()`. -/
def FwdWhereEnumerator.init {α : Type} (e : FwdEnumeratorFromIterator α)
    (filter : α → Bool) : FwdWhereEnumerator α :=
  ⟨⟨fwdSeekAux filter e._current⟩, filter⟩

/-- forward.h `WhereEnumerator::has_value` (lines 155-158). -/
def FwdWhereEnumerator.has_value {α : Type} (w : FwdWhereEnumerator α) :
    Bool :=
  w._enumerator.has_value

/-- forward.h `WhereEnumerator::get_value` (lines 160-163). -/
def FwdWhereEnumerator.get_value {α : Type} [Inhabited α]
    (w : FwdWhereEnumerator α) : α :=
  w._enumerator.get_value

/-- forward.h `WhereEnumerator::forward` (lines 165-170):
`assert(has_value()); _enumerator.forward(); seek();`. -/
def FwdWhereEnumerator.forward {α : Type} (w : FwdWhereEnumerator α) :
    FwdWhereEnumerator α :=
  ⟨⟨fwdSeekAux w._filter (w._enumerator.forward)._current⟩, w._filter⟩

/-- forward.h `SelectEnumerator` state (lines 89-137): the upstream, the
map, the pre-computed `_current` value and the `_valid` flag. -/
structure FwdSelectEnumerator (α : Type) where
  _enumerator : FwdWhereEnumerator α
  _map : α → α
  _current : α
  _valid : Bool

/-- forward.h `calculate_current_value` (lines 123-128):
`_valid = _enumerator.has_value(); if (_valid) _current = _map(...);`
returns the `(_current, _valid)` pair; an invalid pull keeps the old
`_current`. -/
def fwdCalculateCurrent {α : Type} [Inhabited α] (e : FwdWhereEnumerator α)
    (map : α → α) (old : α) : α × Bool :=
  (if e.has_value then map e.get_value else old, e.has_value)

/-- forward.h `SelectEnumerator` constructor (lines 97-102): `_current` is
default-constructed, then `calculate_current_value()` runs. -/
def FwdSelectEnumerator.init {α : Type} [Inhabited α]
    (e : FwdWhereEnumerator α) (map : α → α) : FwdSelectEnumerator α :=
  let c := fwdCalculateCurrent e map default
  ⟨e, map, c.1, c.2⟩

/-- forward.h `SelectEnumerator::has_value` (lines 104-107): delegates to
the upstream (not `_valid`). -/
def FwdSelectEnumerator.has_value {α : Type} (s : FwdSelectEnumerator α) :
    Bool :=
  s._enumerator.has_value

/-- forward.h `SelectEnumerator::get_value` (lines 109-112): the
pre-computed `_current`. -/
def FwdSelectEnumerator.get_value {α : Type} (s : FwdSelectEnumerator α) :
    α :=
  s._current

/-- forward.h `SelectEnumerator::forward` (lines 114-119):
`assert(has_value()); _enumerator.forward(); calculate_current_value();`. -/
def FwdSelectEnumerator.forward {α : Type} [Inhabited α]
    (s : FwdSelectEnumerator α) : FwdSelectEnumerator α :=
  let e' := s._enumerator.forward
  let c := fwdCalculateCurrent e' s._map s._current
  ⟨e', s._map, c.1, c.2⟩

/-- Cursor of the forward.h pipeline
`from(v) >> where(P) >> select(F)`: each `get_enumerator` (forward.h lines
78-81, 209-212, 236-239) invokes the constructor of the next cursor. -/
def fwdPipelineCursor {α : Type} [Inhabited α] (v : List α) (P : α → Bool)
    (F : α → α) : FwdSelectEnumerator α :=
  FwdSelectEnumerator.init (FwdWhereEnumerator.init ⟨v⟩ P) F

/-- Drain loop of forward.h `enumerable_to_vector` / `ToVector::apply`
(lines 257-265, 383-392):
`for (en = get_enumerator(); en.has_value(); en.forward())
result.push_back(en.get_value());`. -/
def fwd_to_vector_loop {α : Type} [Inhabited α] :
    Nat → FwdSelectEnumerator α → Option (List α)
  | 0, _ => none
  | fuel + 1, e =>
      if e.has_value then
        (fwd_to_vector_loop fuel e.forward).map
          (fun r => e.get_value :: r)
      else
        some []

/-- Specification of the seek loop: the result is either empty with nothing
accepted by the filter in the input, or starts with the first accepted
element, with the skipped prefix holding no accepted elements. -/
theorem fwdSeekAux_spec {α : Type} (P : α → Bool) :
    ∀ l : List α,
      (fwdSeekAux P l = [] ∧ l.filter P = []) ∨
      (∃ a t, fwdSeekAux P l = a :: t ∧ P a = true ∧
        l.filter P = a :: t.filter P ∧ t.length < l.length) := by
  intro l
  induction l with
  | nil => exact Or.inl ⟨rfl, rfl⟩
  | cons x rest ih =>
      by_cases hx : P x
      · refine Or.inr ⟨x, rest, ?_, hx, ?_, ?_⟩
        · simp [fwdSeekAux, hx]
        · simp [List.filter_cons, hx]
        · simp
      · have hseek : fwdSeekAux P (x :: rest) = fwdSeekAux P rest := by
          simp [fwdSeekAux, hx]
        have hfil : (x :: rest).filter P = rest.filter P := by
          simp [List.filter_cons, hx]
        rcases ih with ⟨h1, h2⟩ | ⟨a, t, h1, h2, h3, h4⟩
        · exact Or.inl ⟨hseek.trans h1, hfil.trans h2⟩
        · exact Or.inr ⟨a, t, hseek.trans h1, h2, hfil.trans h3,
            Nat.lt_succ_of_lt h4⟩

/-- Correctness of the forward.h pipeline drain: `from(v) >> where(P) >>
select(F)` drained via `has_value`/`get_value`/`forward` yields
`(v.filter P).map F`. -/
theorem fwd_pipeline_drain {α : Type} [Inhabited α] (P : α → Bool)
    (F : α → α) :
    ∀ {fuel : Nat} (v : List α), v.length < fuel →
      fwd_to_vector_loop fuel (fwdPipelineCursor v P F) =
        some ((v.filter P).map F) := by
  intro fuel
  induction fuel with
  | zero => intro v hv; omega
  | succ f ih =>
      intro v hv
      rcases fwdSeekAux_spec P v with ⟨h1, h2⟩ | ⟨a, t, h1, h2, h3, h4⟩
      · have hcur : fwdPipelineCursor v P F =
            ⟨⟨⟨[]⟩, P⟩, F, default, false⟩ := by
          simp [fwdPipelineCursor, FwdSelectEnumerator.init,
            FwdWhereEnumerator.init, fwdCalculateCurrent, h1,
            FwdWhereEnumerator.has_value, FwdEnumeratorFromIterator.has_value]
        rw [hcur, h2]
        simp [fwd_to_vector_loop, FwdSelectEnumerator.has_value,
          FwdWhereEnumerator.has_value, FwdEnumeratorFromIterator.has_value]
      · have hcur : fwdPipelineCursor v P F =
            ⟨⟨⟨a :: t⟩, P⟩, F, F a, true⟩ := by
          simp [fwdPipelineCursor, FwdSelectEnumerator.init,
            FwdWhereEnumerator.init, fwdCalculateCurrent, h1,
            FwdWhereEnumerator.has_value, FwdEnumeratorFromIterator.has_value,
            FwdWhereEnumerator.get_value, FwdEnumeratorFromIterator.get_value]
        have hfwd : FwdSelectEnumerator.forward
            (⟨⟨⟨a :: t⟩, P⟩, F, F a, true⟩ : FwdSelectEnumerator α) =
            ⟨⟨⟨fwdSeekAux P t⟩, P⟩, F,
              (fwdCalculateCurrent ⟨⟨fwdSeekAux P t⟩, P⟩ F (F a)).1,
              (fwdCalculateCurrent ⟨⟨fwdSeekAux P t⟩, P⟩ F (F a)).2⟩ := by
          simp [FwdSelectEnumerator.forward, FwdWhereEnumerator.forward,
            FwdEnumeratorFromIterator.forward]
        have hdrain : fwd_to_vector_loop f (FwdSelectEnumerator.forward
            (⟨⟨⟨a :: t⟩, P⟩, F, F a, true⟩ : FwdSelectEnumerator α)) =
            some ((t.filter P).map F) := by
          rw [hfwd]
          rcases fwdSeekAux_spec P t with ⟨g1, g2⟩ | ⟨b, u, g1, g2, g3, g4⟩
          · rw [g1, g2]
            have hf1 : 0 < f := by omega
            match f, hf1 with
            | f' + 1, _ =>
              simp [fwd_to_vector_loop, fwdCalculateCurrent,
                FwdSelectEnumerator.has_value, FwdWhereEnumerator.has_value,
                FwdEnumeratorFromIterator.has_value]
          · have := ih t (by omega)
            have hcur2 : fwdPipelineCursor t P F =
                ⟨⟨⟨b :: u⟩, P⟩, F, F b, true⟩ := by
              simp [fwdPipelineCursor, FwdSelectEnumerator.init,
                FwdWhereEnumerator.init, fwdCalculateCurrent, g1,
                FwdWhereEnumerator.has_value,
                FwdEnumeratorFromIterator.has_value,
                FwdWhereEnumerator.get_value,
                FwdEnumeratorFromIterator.get_value]
            rw [hcur2] at this
            rw [g1]
            have hstate : (⟨⟨⟨b :: u⟩, P⟩, F,
                (fwdCalculateCurrent ⟨⟨b :: u⟩, P⟩ F (F a)).1,
                (fwdCalculateCurrent ⟨⟨b :: u⟩, P⟩ F (F a)).2⟩ :
                  FwdSelectEnumerator α) =
                ⟨⟨⟨b :: u⟩, P⟩, F, F b, true⟩ := by
              simp [fwdCalculateCurrent, FwdWhereEnumerator.has_value,
                FwdEnumeratorFromIterator.has_value,
                FwdWhereEnumerator.get_value,
                FwdEnumeratorFromIterator.get_value]
            rw [hstate]
            exact this
        rw [hcur, h3]
        simp only [fwd_to_vector_loop, FwdSelectEnumerator.has_value,
          FwdWhereEnumerator.has_value, FwdEnumeratorFromIterator.has_value,
          List.isEmpty_cons, Bool.not_false, if_true, hdrain,
          FwdSelectEnumerator.get_value, List.map_cons]
        rfl

/-! ## Claim theorems -/

/-- C1: the claim states that for start > end the very first pull of the
range cursor returns Absent.  The code behaves otherwise: on
`range(5, 3)` the first pull returns Present 5 (the cursor only stops on
exact equality with the excluded bound), and over unbounded integers every
subsequent pull is Present as well — the cursor counts upward forever.
This contradicts the loop documented in the source comment
(`for (i = start; i < lastExcluded; ++i)`), so the `==` stop test is the
slip. -/
theorem C1_range_start_gt_end_first_pull_present :
    (RangeEnumerator.next ((range (5 : Int) 3).get_enumerator)).1 = (true, 5)
  ∧ ∀ n : Nat,
      has_more (RangeEnumerator.next
        (pullSkip (liftNext RangeEnumerator.next) n
          ((range (5 : Int) 3).get_enumerator))).1 = true := by
  have key : ∀ (n : Nat) (c : Int), 3 < c →
      pullSkip (liftNext RangeEnumerator.next) n ⟨c, 3⟩ = ⟨c + n, 3⟩ := by
    intro n
    induction n with
    | zero => intro c _; simp [pullSkip]
    | succ n ih =>
        intro c hc
        have hne : c ≠ 3 := by omega
        have hstep : stepO (liftNext RangeEnumerator.next)
            (⟨c, 3⟩ : RangeEnumerator Int) = ⟨c + 1, 3⟩ := by
          simp [stepO, liftNext, RangeEnumerator.next, hne]
        have hrest := ih (c + 1) (by omega)
        simp only [pullSkip, hstep, hrest]
        congr 1
        push_cast
        ring
  constructor
  · decide
  · intro n
    have hgn : (range (5 : Int) 3).get_enumerator = ⟨5, 3⟩ := rfl
    rw [hgn, key n 5 (by norm_num)]
    have hne : (5 : Int) + n ≠ 3 := by omega
    simp [RangeEnumerator.next, hne, yield_return, has_more]

/-- C5: for `a ≤ b` the drained `range(a, b)` is exactly the ascending list
`[a, a+1, ..., b-1]` of `b - a` elements; `range(a, a)` drains to the empty
vector; concretely `range(10, 34)` drains to 24 elements with first 10 and
last 33. -/
theorem C5_range_to_vector :
    (∀ a b : Int, a ≤ b → ∀ fuel : Nat, (b - a).toNat < fuel →
      to_vector_loop (liftNext RangeEnumerator.next) fuel
          ((range a b).get_enumerator)
        = some ((List.range (b - a).toNat).map (fun i : Nat => a + (i : Int)))
      ∧ ((List.range (b - a).toNat).map (fun i : Nat => a + (i : Int))).length
          = (b - a).toNat)
  ∧ (∀ a : Int, ∀ fuel : Nat, 0 < fuel →
      to_vector_loop (liftNext RangeEnumerator.next) fuel
        ((range a a).get_enumerator) = some [])
  ∧ (∃ l : List Int,
      to_vector_loop (liftNext RangeEnumerator.next) 25
          ((range (10 : Int) 34).get_enumerator) = some l
      ∧ l.length = 24 ∧ l.headD 0 = 10 ∧ l.getLastD 0 = 33) := by
  have main : ∀ a b : Int, a ≤ b → ∀ fuel : Nat, (b - a).toNat < fuel →
      to_vector_loop (liftNext RangeEnumerator.next) fuel
          ((range a b).get_enumerator)
        = some ((List.range (b - a).toNat).map (fun i : Nat => a + (i : Int))) := by
    intro a b hab fuel hfuel
    have hb : a + ((b - a).toNat : Int) = b := by omega
    have hprod := produces_range_aux (b - a).toNat a
    rw [hb] at hprod
    have hlen : ((List.range (b - a).toNat).map
        (fun i : Nat => a + (i : Int))).length < fuel := by
      simpa using hfuel
    exact to_vector_loop_produces hprod hlen
  refine ⟨fun a b hab fuel hfuel => ⟨main a b hab fuel hfuel, by simp⟩,
    ?_, ?_⟩
  · intro a fuel hfuel
    have h := main a a le_rfl fuel (by simpa using hfuel)
    simpa using h
  · refine ⟨(List.range 24).map (fun i : Nat => 10 + (i : Int)), ?_, ?_, ?_, ?_⟩
    · have h := main 10 34 (by norm_num) 25 (by norm_num)
      simpa using h
    · decide
    · decide
    · decide

/-- C5 witness: `range(2, 5)` drains to `[2, 3, 4]`. -/
theorem C5_range_to_vector_witness :
    to_vector_loop (liftNext RangeEnumerator.next) 4
      ((range (2 : Int) 5).get_enumerator) = some [2, 3, 4] := by
  have h := (C5_range_to_vector.1 2 5 (by norm_num) 4 (by norm_num)).1
  simpa using h

/-- C6: `sum_from` computes the left fold `acc = zero; acc = acc + v` over
the pulled values, and returns the zero unchanged on an empty sequence.
Stated at the cursor level: the sequence is any cursor state whose trace is
`L`, as produced by the enumerable's `get_enumerator`. -/
theorem C6_sum_from_fold {E T : Type} [Add T]
    (nextE : E → Option ((Bool × T) × E)) :
    (∀ (e : E) (L : List T) (z : T) (fuel : Nat),
      Produces nextE e L → L.length < fuel →
      sum_from_loop nextE fuel e z = some (L.foldl (fun acc v => acc + v) z))
  ∧ (∀ (e : E) (z : T) (fuel : Nat),
      Produces nextE e [] → 0 < fuel →
      sum_from_loop nextE fuel e z = some z) := by
  constructor
  · intro e L z fuel hL hf
    exact sum_from_loop_produces hL z hf
  · intro e z fuel hL hf
    have h := sum_from_loop_produces hL z (by simpa using hf)
    simpa using h

/-- C6 witness: summing the container `[1, 2, 3]` from zero 10 gives 16. -/
theorem C6_sum_from_fold_witness :
    sum_from_loop (liftNext EnumeratorFromIterator.next) 4
      ((from_ [(1 : Int), 2, 3]).get_enumerator) 10 = some 16 := by
  have hprod : Produces (liftNext EnumeratorFromIterator.next)
      ((from_ [(1 : Int), 2, 3]).get_enumerator) [1, 2, 3] :=
    Produces.cons rfl (Produces.cons rfl (Produces.cons rfl
      (Produces.nil (p := yield_break Int) rfl rfl)))
  exact (C6_sum_from_fold (liftNext EnumeratorFromIterator.next)).1
    _ _ 10 4 hprod (by norm_num)

/-- C7 counterexample: reading the value out of an Absent pull result does
not fail fast — it is an ordinary total read returning the
default-constructed sentinel, indistinguishable from reading a Present
result that holds the default value; the same holds for forward.h's
`get_value` on an exhausted cursor. -/
theorem C7_read_absent_counterexample :
    get_value_by_ref (yield_break Int) = 0
  ∧ get_value_by_ref (yield_break Int) = get_value_by_ref (yield_return (0 : Int))
  ∧ FwdEnumeratorFromIterator.get_value (⟨[]⟩ : FwdEnumeratorFromIterator Int)
      = 0 := by
  exact ⟨rfl, rfl, rfl⟩

/-- C7 amended: reading the value out of an Absent pull result is
unchecked: `get_value_by_ref` returns the default-constructed sentinel
stored in the Absent tuple, and forward.h's `get_value` on an exhausted
cursor returns the (undefined-behavior, modeled as default) dereference;
no assertion fires on the read path. -/
theorem C7_read_absent_returns_default :
    (∀ (α : Type) [Inhabited α],
      get_value_by_ref (yield_break α) = (default : α))
  ∧ (∀ (α : Type) [Inhabited α],
      get_value_by_ref (yield_break α)
        = get_value_by_ref (yield_return (default : α)))
  ∧ (∀ (α : Type) [Inhabited α] (e : FwdEnumeratorFromIterator α),
      e.has_value = false → e.get_value = (default : α)) := by
  refine ⟨fun α _ => rfl, fun α _ => rfl, fun α _ e h => ?_⟩
  cases e with
  | mk cur =>
      cases cur with
      | nil => rfl
      | cons x rest =>
          simp [FwdEnumeratorFromIterator.has_value] at h

/-- C7 amended witness: on `Int`, the exhausted forward.h cursor reads 0. -/
theorem C7_read_absent_returns_default_witness :
    (⟨[]⟩ : FwdEnumeratorFromIterator Int).has_value = false
  ∧ (⟨[]⟩ : FwdEnumeratorFromIterator Int).get_value = 0 := by
  exact ⟨by decide, C7_read_absent_returns_default.2.2 Int ⟨[]⟩ (by decide)⟩

/-- C2: draining `where(S, P)` yields exactly the order-preserving filtered
subsequence of the drained upstream; with an always-true predicate it is the
upstream drain, with an always-false predicate it is empty.  The sequence
`S` is any cursor state whose trace is `L`; `wf` is the per-pull fuel of the
filter loop and `vf` the fuel of the drain loop. -/
theorem C2_where_to_vector_filters {E α : Type} [Inhabited α]
    (nextE : E → Option ((Bool × α) × E)) (e : E) (L : List α)
    (hL : Produces nextE e L) :
    (∀ (P : α → Bool) (wf vf : Nat), L.length < wf → (L.filter P).length < vf →
      to_vector_loop (WhereEnumerator.next nextE wf) vf ⟨e, P⟩
        = some (L.filter P))
  ∧ (∀ wf vf : Nat, L.length < wf → L.length < vf →
      to_vector_loop (WhereEnumerator.next nextE wf) vf ⟨e, fun _ => true⟩
        = some L)
  ∧ (∀ wf vf : Nat, L.length < wf → 0 < vf →
      to_vector_loop (WhereEnumerator.next nextE wf) vf ⟨e, fun _ => false⟩
        = some []) := by
  have main : ∀ (P : α → Bool) (wf vf : Nat), L.length < wf →
      (L.filter P).length < vf →
      to_vector_loop (WhereEnumerator.next nextE wf) vf ⟨e, P⟩
        = some (L.filter P) := by
    intro P wf vf hwf hvf
    exact to_vector_loop_produces (produces_where hL P hwf) hvf
  refine ⟨main, ?_, ?_⟩
  · intro wf vf hwf hvf
    have h := main (fun _ => true) wf vf hwf (by simpa using hvf)
    simpa using h
  · intro wf vf hwf hvf
    have h := main (fun _ => false) wf vf hwf (by simpa using hvf)
    simpa using h

/-- C2 witness: `from([15, 21]) >> where(i < 20)` drains to `[15]`
(the SimpleWhere unit test). -/
theorem C2_where_to_vector_filters_witness :
    to_vector_loop
      (WhereEnumerator.next (liftNext EnumeratorFromIterator.next) 3) 2
      ((WhereEnumerable.mk (from_ [(15 : Int), 21])
          (fun i => decide (i < 20))).get_enumerator
        EnumerableFromIteratableRef.get_enumerator)
      = some [15] := by
  have hprod : Produces (liftNext EnumeratorFromIterator.next)
      ((from_ [(15 : Int), 21]).get_enumerator) [15, 21] :=
    Produces.cons rfl (Produces.cons rfl
      (Produces.nil (p := yield_break Int) rfl rfl))
  have h := (C2_where_to_vector_filters (liftNext EnumeratorFromIterator.next)
      ((from_ [(15 : Int), 21]).get_enumerator) [15, 21] hprod).1
      (fun i => decide (i < 20)) 3 2 (by norm_num) (by decide)
  simpa using h

/-- C3: a pull of the select cursor pulls the upstream exactly once, records
the advanced upstream state, propagates Absent unchanged (up to the sentinel
payload), and otherwise yields `present(F(value))`; consequently draining
the select cursor maps `F` over the upstream trace in order. -/
theorem C3_select_maps {E α β : Type} [Inhabited β]
    (nextE : E → Option ((Bool × α) × E)) :
    (∀ (s : SelectEnumerator E α β) (p : Bool × α) (e' : E),
      nextE s._enumerator = some (p, e') →
      SelectEnumerator.next nextE s
        = some (if has_more p then yield_return (s._transform p.2)
                else yield_break β,
                ⟨e', s._transform⟩))
  ∧ (∀ (s : SelectEnumerator E α β),
      nextE s._enumerator = none → SelectEnumerator.next nextE s = none)
  ∧ (∀ (F : α → β) (e : E) (L : List α) (fuel : Nat),
      Produces nextE e L → L.length < fuel →
      to_vector_loop (SelectEnumerator.next nextE) fuel ⟨e, F⟩
        = some (L.map F)) := by
  refine ⟨?_, ?_, ?_⟩
  · intro s p e' h
    simp only [SelectEnumerator.next, h]
  · intro s h
    simp only [SelectEnumerator.next, h]
  · intro F e L fuel hL hf
    exact to_vector_loop_produces (produces_select hL F)
      (by simpa using hf)

/-- C3 witness: `from([15, 21]) >> select(i + 100)` drains to
`[115, 121]`. -/
theorem C3_select_maps_witness :
    to_vector_loop
      (SelectEnumerator.next (liftNext EnumeratorFromIterator.next)) 3
      ((SelectEnumerable.mk (from_ [(15 : Int), 21])
          (fun i => i + 100)).get_enumerator
        EnumerableFromIteratableRef.get_enumerator)
      = some [115, 121] := by
  have hprod : Produces (liftNext EnumeratorFromIterator.next)
      ((from_ [(15 : Int), 21]).get_enumerator) [15, 21] :=
    Produces.cons rfl (Produces.cons rfl
      (Produces.nil (p := yield_break Int) rfl rfl))
  have h := (C3_select_maps
      (liftNext EnumeratorFromIterator.next)).2.2
      (fun i => i + 100) ((from_ [(15 : Int), 21]).get_enumerator)
      [15, 21] 3 hprod (by norm_num)
  simpa using h

/-- C9: a single pull of the filter cursor over an upstream that exhausts
after finitely many pulls terminates — with per-pull fuel above the length
of the upstream trace the loop completes, returning either Absent (upstream
exhausted) or a Present value accepted by the predicate. -/
theorem C9_where_pull_terminates {E α : Type} [Inhabited α]
    (nextE : E → Option ((Bool × α) × E)) (e : E) (L : List α)
    (P : α → Bool) (hL : Produces nextE e L) :
    ∀ fuel : Nat, L.length < fuel →
      ∃ (p : Bool × α) (w' : WhereEnumerator E α),
        WhereEnumerator.next nextE fuel ⟨e, P⟩ = some (p, w')
        ∧ (has_more p = false
           ∨ (has_more p = true ∧ P (get_value_by_ref p) = true)) := by
  intro fuel hf
  have hprod := produces_where hL P hf
  match hfil : L.filter P with
  | [] =>
      rw [hfil] at hprod
      cases hprod with
      | nil h1 h2 => exact ⟨_, _, h1, Or.inl h2⟩
  | v :: rest =>
      rw [hfil] at hprod
      cases hprod with
      | cons h1 _ =>
          have hv : P v = true := by
            have : v ∈ L.filter P := by rw [hfil]; exact List.mem_cons_self ..
            exact (List.mem_filter.mp this).2
          exact ⟨(true, v), _, h1, Or.inr ⟨rfl, hv⟩⟩

/-- C9 witness: over the container `[1, 2, 3]` with a predicate rejecting
every element, one pull of the filter cursor completes and is Absent. -/
theorem C9_where_pull_terminates_witness :
    ∃ (p : Bool × Int) (w' : WhereEnumerator (EnumeratorFromIterator Int) Int),
      WhereEnumerator.next (liftNext EnumeratorFromIterator.next) 4
        ⟨(from_ [(1 : Int), 2, 3]).get_enumerator, fun i => decide (5 < i)⟩
        = some (p, w')
      ∧ (has_more p = false
         ∨ (has_more p = true ∧ decide (5 < get_value_by_ref p) = true)) := by
  have hprod : Produces (liftNext EnumeratorFromIterator.next)
      ((from_ [(1 : Int), 2, 3]).get_enumerator) [1, 2, 3] :=
    Produces.cons rfl (Produces.cons rfl (Produces.cons rfl
      (Produces.nil (p := yield_break Int) rfl rfl)))
  exact C9_where_pull_terminates (liftNext EnumeratorFromIterator.next)
    ((from_ [(1 : Int), 2, 3]).get_enumerator) [1, 2, 3]
    (fun i => decide (5 < i)) hprod 4 (by norm_num)

/-- C4: once a pull returns Absent, every subsequent pull on the same
cursor returns Absent, for each of the four cursors: the range cursor and
the container (iterator) cursor unconditionally; the filter and map cursors
over any sticky upstream (any composition of these cursors is sticky by the
other conjuncts). -/
theorem C4_absent_is_terminal :
    (∀ (N : Type) [DecidableEq N] [Inhabited N] [Add N] [One N]
        (e : RangeEnumerator N),
      AbsentAt (liftNext RangeEnumerator.next) e →
      ∀ n : Nat, AbsentAt (liftNext RangeEnumerator.next)
        (pullSkip (liftNext RangeEnumerator.next) n e))
  ∧ (∀ (α : Type) [Inhabited α] (e : EnumeratorFromIterator α),
      AbsentAt (liftNext EnumeratorFromIterator.next) e →
      ∀ n : Nat, AbsentAt (liftNext EnumeratorFromIterator.next)
        (pullSkip (liftNext EnumeratorFromIterator.next) n e))
  ∧ (∀ (E α : Type) [Inhabited α] (nextE : E → Option ((Bool × α) × E)),
      StickyNext nextE → ∀ (fuel : Nat) (w : WhereEnumerator E α),
      AbsentAt (fun x => WhereEnumerator.next nextE fuel x) w →
      ∀ n : Nat, AbsentAt (fun x => WhereEnumerator.next nextE fuel x)
        (pullSkip (fun x => WhereEnumerator.next nextE fuel x) n w))
  ∧ (∀ (E α β : Type) [Inhabited β] (nextE : E → Option ((Bool × α) × E)),
      StickyNext nextE → ∀ (s : SelectEnumerator E α β),
      AbsentAt (SelectEnumerator.next nextE) s →
      ∀ n : Nat, AbsentAt (SelectEnumerator.next nextE)
        (pullSkip (SelectEnumerator.next nextE) n s)) := by
  refine ⟨?_, ?_, ?_, ?_⟩
  · intro N _ _ _ _ e habs n
    exact absent_forever range_sticky habs n
  · intro α _ e habs n
    exact absent_forever iterator_sticky habs n
  · intro E α _ nextE hst fuel w habs n
    exact absent_forever (where_sticky hst fuel) habs n
  · intro E α β _ nextE hst s habs n
    exact absent_forever (select_sticky hst) habs n

/-- C4 witness: concrete exhausted range, iterator, filter and map cursors
stay Absent two pulls later. -/
theorem C4_absent_is_terminal_witness :
    AbsentAt (liftNext RangeEnumerator.next)
      (pullSkip (liftNext RangeEnumerator.next) 2
        (⟨3, 3⟩ : RangeEnumerator Int))
  ∧ AbsentAt (liftNext EnumeratorFromIterator.next)
      (pullSkip (liftNext EnumeratorFromIterator.next) 2
        (⟨[]⟩ : EnumeratorFromIterator Int))
  ∧ AbsentAt
      (fun x => WhereEnumerator.next (liftNext EnumeratorFromIterator.next) 1 x)
      (pullSkip
        (fun x => WhereEnumerator.next (liftNext EnumeratorFromIterator.next) 1 x)
        2 (⟨⟨[]⟩, fun _ => true⟩ : WhereEnumerator (EnumeratorFromIterator Int) Int))
  ∧ AbsentAt (SelectEnumerator.next (liftNext EnumeratorFromIterator.next))
      (pullSkip (SelectEnumerator.next (liftNext EnumeratorFromIterator.next))
        2 (⟨⟨[]⟩, fun x => x + 1⟩ :
              SelectEnumerator (EnumeratorFromIterator Int) Int Int)) := by
  refine ⟨C4_absent_is_terminal.1 Int ⟨3, 3⟩ ⟨_, _, rfl, rfl⟩ 2,
    C4_absent_is_terminal.2.1 Int ⟨[]⟩ ⟨_, _, rfl, rfl⟩ 2,
    C4_absent_is_terminal.2.2.1 (EnumeratorFromIterator Int) Int
      (liftNext EnumeratorFromIterator.next) iterator_sticky 1
      ⟨⟨[]⟩, fun _ => true⟩ ⟨_, _, rfl, rfl⟩ 2,
    C4_absent_is_terminal.2.2.2 (EnumeratorFromIterator Int) Int Int
      (liftNext EnumeratorFromIterator.next) iterator_sticky
      ⟨⟨[]⟩, fun x => x + 1⟩ ⟨_, _, rfl, rfl⟩ 2⟩

/-- The `sizes` enumerable of the LambdaReuse1 unit test:
`from(["cat","bunny","doggy","horsey"]) >> where(s[0] != 'c')
>> select(s.size())`. -/
def lambdaReuse1Sizes :
    SelectEnumerable (WhereEnumerable (EnumerableFromIteratableRef String)
      String) String Nat :=
  ⟨⟨from_ ["cat", "bunny", "doggy", "horsey"],
      fun s => decide (s.data.headD 'a' ≠ 'c')⟩,
    fun s => s.data.length⟩

/-- C8: `get_enumerator` may be called arbitrarily often on a sequence;
being `const` in the source and a pure function of the stored fields here,
every call yields the same fresh cursor, anchored at the beginning of the
logical sequence, and each copy drains to the full denotation — so two
drains of the same sequence are equal.  Concretely, draining the
LambdaReuse1 pipeline twice gives `[5, 5, 6]` both times. -/
theorem C8_get_enumerator_reusable :
    (∀ (S E α β : Type) [Inhabited α] [Inhabited β] (getEnum : S → E)
        (nextE : E → Option ((Bool × α) × E)) (up : S) (L : List α)
        (P : α → Bool) (F : α → β) (wf vf : Nat),
      Produces nextE (getEnum up) L → L.length < wf →
      (L.filter P).length < vf →
      (SelectEnumerable.mk (WhereEnumerable.mk up P) F).get_enumerator
          (WhereEnumerable.get_enumerator getEnum)
        = (SelectEnumerable.mk (WhereEnumerable.mk up P) F).get_enumerator
          (WhereEnumerable.get_enumerator getEnum)
      ∧ to_vector_loop (SelectEnumerator.next (WhereEnumerator.next nextE wf))
          vf ((SelectEnumerable.mk (WhereEnumerable.mk up P) F).get_enumerator
            (WhereEnumerable.get_enumerator getEnum))
          = some ((L.filter P).map F))
  ∧ (to_vector_loop (SelectEnumerator.next
        (WhereEnumerator.next (liftNext EnumeratorFromIterator.next) 5)) 4
        (lambdaReuse1Sizes.get_enumerator
          (WhereEnumerable.get_enumerator
            EnumerableFromIteratableRef.get_enumerator))
        = some [5, 5, 6]
      ∧ to_vector_loop (SelectEnumerator.next
        (WhereEnumerator.next (liftNext EnumeratorFromIterator.next) 5)) 4
        (lambdaReuse1Sizes.get_enumerator
          (WhereEnumerable.get_enumerator
            EnumerableFromIteratableRef.get_enumerator))
        = some [5, 5, 6]) := by
  have main : ∀ (S E α β : Type) [Inhabited α] [Inhabited β] (getEnum : S → E)
      (nextE : E → Option ((Bool × α) × E)) (up : S) (L : List α)
      (P : α → Bool) (F : α → β) (wf vf : Nat),
      Produces nextE (getEnum up) L → L.length < wf →
      (L.filter P).length < vf →
      to_vector_loop (SelectEnumerator.next (WhereEnumerator.next nextE wf))
        vf ((SelectEnumerable.mk (WhereEnumerable.mk up P) F).get_enumerator
          (WhereEnumerable.get_enumerator getEnum))
        = some ((L.filter P).map F) := by
    intro S E α β _ _ getEnum nextE up L P F wf vf hL hwf hvf
    have hW := produces_where hL P hwf
    have hS := produces_select hW F
    exact to_vector_loop_produces hS (by simpa using hvf)
  have hconc : to_vector_loop (SelectEnumerator.next
      (WhereEnumerator.next (liftNext EnumeratorFromIterator.next) 5)) 4
      (lambdaReuse1Sizes.get_enumerator
        (WhereEnumerable.get_enumerator
          EnumerableFromIteratableRef.get_enumerator))
      = some [5, 5, 6] := by
    have hprod : Produces (liftNext EnumeratorFromIterator.next)
        (EnumerableFromIteratableRef.get_enumerator
          (from_ ["cat", "bunny", "doggy", "horsey"]))
        ["cat", "bunny", "doggy", "horsey"] :=
      Produces.cons rfl (Produces.cons rfl (Produces.cons rfl
        (Produces.cons rfl (Produces.nil (p := yield_break String) rfl rfl))))
    have h := main (EnumerableFromIteratableRef String)
      (EnumeratorFromIterator String) String Nat
      EnumerableFromIteratableRef.get_enumerator
      (liftNext EnumeratorFromIterator.next)
      (from_ ["cat", "bunny", "doggy", "horsey"])
      ["cat", "bunny", "doggy", "horsey"]
      (fun s => decide (s.data.headD 'a' ≠ 'c'))
      (fun s => s.data.length) 5 4 hprod (by norm_num) (by decide)
    have heval : ((["cat", "bunny", "doggy", "horsey"].filter
        (fun s => decide (s.data.headD 'a' ≠ 'c'))).map
          (fun s => s.data.length)) = [5, 5, 6] := by decide
    rw [heval] at h
    exact h
  exact ⟨fun S E α β _ _ getEnum nextE up L P F wf vf hL hwf hvf =>
    ⟨rfl, main S E α β getEnum nextE up L P F wf vf hL hwf hvf⟩,
    hconc, hconc⟩

/-- C8 witness: over `[1, 2]` with predicate `i < 2` and transform
`i * 10`, the pipeline's cursor drains to `[10]`. -/
theorem C8_get_enumerator_reusable_witness :
    to_vector_loop (SelectEnumerator.next
      (WhereEnumerator.next (liftNext EnumeratorFromIterator.next) 3)) 2
      ((SelectEnumerable.mk
          (WhereEnumerable.mk (from_ [(1 : Int), 2])
            (fun i => decide (i < 2))) (fun i => i * 10)).get_enumerator
        (WhereEnumerable.get_enumerator
          EnumerableFromIteratableRef.get_enumerator))
      = some [10] := by
  have hprod : Produces (liftNext EnumeratorFromIterator.next)
      (EnumerableFromIteratableRef.get_enumerator (from_ [(1 : Int), 2]))
      [1, 2] :=
    Produces.cons rfl (Produces.cons rfl
      (Produces.nil (p := yield_break Int) rfl rfl))
  have h := (C8_get_enumerator_reusable.1 (EnumerableFromIteratableRef Int)
      (EnumeratorFromIterator Int) Int Int
      EnumerableFromIteratableRef.get_enumerator
      (liftNext EnumeratorFromIterator.next) (from_ [(1 : Int), 2]) [1, 2]
      (fun i => decide (i < 2)) (fun i => i * 10) 3 2 hprod (by norm_num)
      (by decide)).2
  simpa using h

/-- Cursor of the forward-basics.h pipeline
`from(v) >> where(P) >> select(F)`, as built by the chained
`get_enumerator` calls. -/
def basicsPipelineCursor {α : Type} (v : List α) (P : α → Bool)
    (F : α → α) :
    SelectEnumerator (WhereEnumerator (EnumeratorFromIterator α) α) α α :=
  (SelectEnumerable.mk (WhereEnumerable.mk (from_ v) P) F).get_enumerator
    (WhereEnumerable.get_enumerator EnumerableFromIteratableRef.get_enumerator)

/-- C10: the two implementations are observationally equivalent on shared
pipelines: for every container `v`, pure predicate `P` and type-preserving
transform `F`, draining `from(v) >> where(P) >> select(F)` yields
`(v.filter P).map F` both under the tuple-optional `next()` protocol of
forward-basics.h and under the `has_value`/`get_value`/`forward` protocol
of forward.h. -/
theorem C10_protocols_equivalent {α : Type} [Inhabited α] (v : List α)
    (P : α → Bool) (F : α → α) (wf vf gf : Nat)
    (hwf : v.length < wf) (hvf : (v.filter P).length < vf)
    (hgf : v.length < gf) :
    to_vector_loop (SelectEnumerator.next
        (WhereEnumerator.next (liftNext EnumeratorFromIterator.next) wf)) vf
      (basicsPipelineCursor v P F)
      = some ((v.filter P).map F)
  ∧ fwd_to_vector_loop gf (fwdPipelineCursor v P F)
      = some ((v.filter P).map F) := by
  constructor
  · have hIter := produces_iterator (α := α) v
    have hW := produces_where hIter P hwf
    have hS := produces_select hW F
    exact to_vector_loop_produces hS (by simpa using hvf)
  · exact fwd_pipeline_drain P F v hgf

/-- C10 witness: `from([15, 21]) >> where(i < 20) >> select(i + 100)`
drains to `[115]` under both protocols (the Composition2 unit test). -/
theorem C10_protocols_equivalent_witness :
    to_vector_loop (SelectEnumerator.next
        (WhereEnumerator.next (liftNext EnumeratorFromIterator.next) 3)) 2
      (basicsPipelineCursor [(15 : Int), 21]
        (fun i => decide (i < 20)) (fun i => i + 100))
      = some [115]
  ∧ fwd_to_vector_loop 3
      (fwdPipelineCursor [(15 : Int), 21]
        (fun i => decide (i < 20)) (fun i => i + 100))
      = some [115] := by
  have h := C10_protocols_equivalent [(15 : Int), 21]
    (fun i => decide (i < 20)) (fun i => i + 100) 3 2 3
    (by norm_num) (by decide) (by norm_num)
  have heval : (([(15 : Int), 21].filter (fun i => decide (i < 20))).map
      (fun i => i + 100)) = [115] := by decide
  rw [heval] at h
  exact h
